import Mathlib

/-!
Verification development for the `ollama-file-find` repository.

Rust strings are modelled as `List Char` (`Str`); Rust's `str::trim` is
modelled over the ASCII whitespace characters, and `u64` values as `Nat`
with an explicit `< 2 ^ 64` bound where `u64::from_str` can overflow.
Filesystem metadata probes (`fs::metadata(..).len()`) are modelled by an
oracle `Str → Option Nat` giving the byte size of an existing file, and
path joining by appending `'/'` and the (always relative, single-segment)
file name.
-/

set_option maxHeartbeats 1000000

deriving instance DecidableEq for Except

namespace OFF

/-- Rust `&str` / `String`, modelled as a list of characters. -/
abbrev Str := List Char

/-- Whitespace predicate used by `str::trim` (restricted to the ASCII
whitespace characters that can actually occur in media-type strings). -/
def isWS (c : Char) : Bool := c = ' ' || c = '\t' || c = '\n' || c = '\r'

/-- `str::trim`: drop whitespace from both ends. -/
def rustTrim (l : Str) : Str :=
  ((l.dropWhile isWS).reverse.dropWhile isWS).reverse

/-- Rust `str::split(sep)`: split at every occurrence of `sep`;
always returns at least one (possibly empty) piece. -/
def splitChar (sep : Char) : Str → List Str
  | [] => [[]]
  | c :: cs =>
    if c = sep then [] :: splitChar sep cs
    else
      match splitChar sep cs with
      | [] => [[c]]
      | h :: t => (c :: h) :: t

/-- Rust `str::splitn(2, sep)`: the text before the first `sep`, and
(optionally) the text after it. -/
def splitOnce (sep : Char) : Str → Str × Option Str
  | [] => ([], none)
  | c :: cs =>
    if c = sep then ([], some cs)
    else
      let r := splitOnce sep cs
      (c :: r.1, r.2)

/-- ASCII lowercasing of a single character. -/
def lowerAscii (c : Char) : Char :=
  if 'A' ≤ c ∧ c ≤ 'Z' then Char.ofNat (c.toNat + 32) else c

/-- Rust `str::eq_ignore_ascii_case`. -/
def eqIgnoreAsciiCase (a b : Str) : Bool :=
  a.map lowerAscii == b.map lowerAscii

/-- Rust `u64::from_str` (as used by `str::parse::<u64>()`): an optional
leading `'+'`, then one or more ASCII digits, and the value must fit in
64 bits. -/
def parseU64 (s : Str) : Option Nat :=
  let t := match s with
    | '+' :: r => r
    | _ => s
  if t = [] then none
  else if t.all Char.isDigit then
    let v := t.foldl (fun a c => a * 10 + (c.toNat - 48)) 0
    if v < 2 ^ 64 then some v else none
  else none

/-- The first character (if any) is not whitespace. -/
def headNotWS : Str → Bool
  | [] => true
  | c :: _ => !isWS c

def renderParams : List (Str × Str) → Str
  | [] => []
  | (k, v) :: rest => ';' :: ' ' :: ((k ++ '=' :: v) ++ renderParams rest)

/-- A parameter key as used by the serializer: non-empty, trim-stable and
free of `';'` and `'='`. -/
def goodKey (k : Str) : Prop :=
  k ≠ [] ∧ rustTrim k = k ∧ ';' ∉ k ∧ '=' ∉ k

/-- A parameter value that survives the parser unchanged: trim-stable
(no leading/trailing whitespace) and free of `';'`. -/
def goodVal (v : Str) : Prop :=
  headNotWS v = true ∧ headNotWS v.reverse = true ∧ ';' ∉ v

/-! ## Media types (`media_type.rs`) -/

/-- `MediaTypeParseError` from `media_type.rs`. -/
inductive MediaTypeParseError where
  | Empty
  | InvalidBase (s : Str)
  | MissingParam (s : Str)
  | InvalidShapeComponent (s : Str)
deriving DecidableEq

/-- `OllamaMediaType` from `media_type.rs`.  `TensorShape` is inlined as
`List Nat`. -/
inductive OllamaMediaType where
  | Config (config_type : Str)
  | Template (name : Option Str)
  | Tensor (name dtype shape_raw : Str) (shape : Option (List Nat))
  | Tokenizer
  | TokenizerConfig
  | License
  | Model
  | Adapter
  | Projector
  | System
  | Params
  | Messages
  | Prompt
  | EmbedLegacy
  | Unknown (s : Str)
deriving DecidableEq

def pfxStr : Str := "application/vnd.ollama.image.".toList
def baseConfig : Str := "application/vnd.ollama.image.config".toList
def baseTemplate : Str := "application/vnd.ollama.image.template".toList
def baseTensor : Str := "application/vnd.ollama.image.tensor".toList
def baseTokenizer : Str := "application/vnd.ollama.image.tokenizer".toList
def baseTokenizerConfig : Str := "application/vnd.ollama.image.tokenizer.config".toList
def baseLicense : Str := "application/vnd.ollama.image.license".toList
def baseModel : Str := "application/vnd.ollama.image.model".toList
def baseAdapter : Str := "application/vnd.ollama.image.adapter".toList
def baseProjector : Str := "application/vnd.ollama.image.projector".toList
def baseSystem : Str := "application/vnd.ollama.image.system".toList
def baseParams : Str := "application/vnd.ollama.image.params".toList
def baseMessages : Str := "application/vnd.ollama.image.messages".toList
def basePrompt : Str := "application/vnd.ollama.image.prompt".toList
def baseEmbed : Str := "application/vnd.ollama.image.embed".toList

def keyType : Str := "type".toList
def keyName : Str := "name".toList
def keyDtype : Str := "dtype".toList
def keyShape : Str := "shape".toList

/-- `OllamaMediaType::base` (known variants only; `Unknown` returns its
stored string). -/
def OllamaMediaType.base : OllamaMediaType → Str
  | .Config _ => baseConfig
  | .Template _ => baseTemplate
  | .Tensor _ _ _ _ => baseTensor
  | .Tokenizer => baseTokenizer
  | .TokenizerConfig => baseTokenizerConfig
  | .License => baseLicense
  | .Model => baseModel
  | .Adapter => baseAdapter
  | .Projector => baseProjector
  | .System => baseSystem
  | .Params => baseParams
  | .Messages => baseMessages
  | .Prompt => basePrompt
  | .EmbedLegacy => baseEmbed
  | .Unknown s => s

/-- `impl Display for OllamaMediaType` (the serialized textual form). -/
def OllamaMediaType.display : OllamaMediaType → Str
  | .Config t => baseConfig ++ "; type=".toList ++ t
  | .Template (some n) => baseTemplate ++ "; name=".toList ++ n
  | .Tensor n d sraw _ =>
      baseTensor ++ "; name=".toList ++ n ++ "; dtype=".toList ++ d
        ++ "; shape=".toList ++ sraw
  | .Unknown s => s
  | m => m.base

/-- `parse_shape`'s loop over the comma-separated parts. -/
def parseShapeDims : List Str → Except MediaTypeParseError (List Nat)
  | [] => .ok []
  | part :: rest =>
    let s := rustTrim part
    if s = [] then parseShapeDims rest
    else
      match parseU64 s with
      | some v =>
        match parseShapeDims rest with
        | .ok ds => .ok (v :: ds)
        | .error e => .error e
      | none => .error (.InvalidShapeComponent s)

/-- `parse_shape` from `media_type.rs`. -/
def parse_shape (raw : Str) : Except MediaTypeParseError (Option (List Nat)) :=
  let trimmed := rustTrim raw
  if trimmed = [] then .ok none
  else
    match parseShapeDims (splitChar ',' trimmed) with
    | .ok ds => .ok (some ds)
    | .error e => .error e

/-- The parameter-collection loop of `FromStr::from_str`: each `;`-chunk is
split at the first `=`, key and value are trimmed, and entries with an
empty key are discarded. -/
def collectParams : List Str → List (Str × Str)
  | [] => []
  | p :: ps =>
    if p = [] then collectParams ps
    else
      let kv := splitOnce '=' p
      let k := rustTrim kv.1
      let v := rustTrim (kv.2.getD [])
      if k = [] then collectParams ps else (k, v) :: collectParams ps

/-- `get_param`: first entry whose key matches case-insensitively. -/
def getParam (params : List (Str × Str)) (key : Str) : Option Str :=
  (params.find? fun kv => eqIgnoreAsciiCase kv.1 key).map (·.2)

/-- `ensure_prefix` from `FromStr::from_str`. -/
def ensurePfx (b : Str) : Except MediaTypeParseError Unit :=
  if pfxStr.isPrefixOf b then .ok () else .error (.InvalidBase b)

/-- The dispatch-on-base part of `FromStr::from_str` (after the input has
been trimmed and split into base and parameters). -/
def dispatch (base : Str) (params : List (Str × Str)) (input : Str) :
    Except MediaTypeParseError OllamaMediaType :=
  if base = baseConfig then
    match ensurePfx base with
    | .error e => .error e
    | .ok _ =>
      match getParam params keyType with
      | some t => .ok (.Config t)
      | none => .error (.MissingParam keyType)
  else if base = baseTemplate then
    match ensurePfx base with
    | .error e => .error e
    | .ok _ => .ok (.Template (getParam params keyName))
  else if base = baseTensor then
    match ensurePfx base with
    | .error e => .error e
    | .ok _ =>
      match getParam params keyName with
      | none => .error (.MissingParam keyName)
      | some n =>
        match getParam params keyDtype with
        | none => .error (.MissingParam keyDtype)
        | some d =>
          match getParam params keyShape with
          | none => .error (.MissingParam keyShape)
          | some sraw =>
            match parse_shape sraw with
            | .error e => .error e
            | .ok shp => .ok (.Tensor n d sraw shp)
  else if base = baseTokenizer then .ok .Tokenizer
  else if base = baseTokenizerConfig then .ok .TokenizerConfig
  else if base = baseLicense then .ok .License
  else if base = baseModel then .ok .Model
  else if base = baseAdapter then .ok .Adapter
  else if base = baseProjector then .ok .Projector
  else if base = baseSystem then .ok .System
  else if base = baseParams then .ok .Params
  else if base = baseMessages then .ok .Messages
  else if base = basePrompt then .ok .Prompt
  else if base = baseEmbed then .ok .EmbedLegacy
  else if pfxStr.isPrefixOf base then .ok (.Unknown input)
  else .error (.InvalidBase base)

/-- `impl FromStr for OllamaMediaType`. -/
def fromStr (input0 : Str) : Except MediaTypeParseError OllamaMediaType :=
  let input := rustTrim input0
  if input = [] then .error .Empty
  else
    let parts := (splitChar ';' input).map rustTrim
    dispatch (parts.headD []) (collectParams parts.tail) input

/-- The known bases of the media-type grammar (the exact match arms of
`from_str`). -/
def knownBases : List Str :=
  [baseConfig, baseTemplate, baseTensor, baseTokenizer, baseTokenizerConfig,
   baseLicense, baseModel, baseAdapter, baseProjector, baseSystem, baseParams,
   baseMessages, basePrompt, baseEmbed]

/-- The base of an input as the spec describes it: the text before the
first `';'`, trimmed. -/
def baseOfInput (s : Str) : Str :=
  rustTrim (s.takeWhile fun c => !(c = ';'))

/-- Modelled from the claim (C6): the comma-separated parts of the
trimmed shape value, each part trimmed, empty parts skipped. -/
def cleanParts (raw : Str) : List Str :=
  ((splitChar ',' (rustTrim raw)).map rustTrim).filter fun s => !s.isEmpty

/-- Modelled from the claim (C6): parse each remaining part as a
non-negative integer; a part that fails to parse fails the whole shape. -/
def specDims : List Str → Except MediaTypeParseError (List Nat)
  | [] => .ok []
  | s :: rest =>
    match parseU64 s with
    | some v =>
      match specDims rest with
      | .ok ds => .ok (v :: ds)
      | .error e => .error e
    | none => .error (.InvalidShapeComponent s)

/-- Modelled from the claim (C6): an entirely empty or whitespace value
yields no parsed shape; otherwise parse the clean parts. -/
def spec_shape (raw : Str) : Except MediaTypeParseError (Option (List Nat)) :=
  if rustTrim raw = [] then .ok none
  else
    match specDims (cleanParts raw) with
    | .ok ds => .ok (some ds)
    | .error e => .error e

/-! ## Manifest / blob data model (`models.rs`, `lib.rs`) -/

/-- `LayerInfo`: digest, media type, optional declared size (`u64`,
modelled as `Nat`; sizes read from JSON are below `2^64`). -/
structure LayerInfo where
  digest : Str
  media_type : Str
  size : Option Nat
deriving DecidableEq

/-- `ManifestJson` / `ManifestData`: layer list plus optional config. -/
structure ManifestData where
  layers : List LayerInfo
  config : Option LayerInfo
deriving DecidableEq

/-- `BlobPathInfo` (`exists` is a reserved word in Lean, hence `exists'`). -/
structure BlobPathInfo where
  digest : Str
  media_type : Str
  declared_size : Option Nat
  path : Str
  exists' : Bool
  size_ok : Option Bool
  actual_size : Option Nat
  primary : Bool
deriving DecidableEq, Inhabited

/-- Rust `str::strip_prefix`. -/
def stripPfx (p s : Str) : Option Str :=
  if p.isPrefixOf s then some (s.drop p.length) else none

def sha256Pfx : Str := "sha256:".toList

/-- `Path::join` with a single relative file-name component, modelled as
string concatenation with `'/'`. -/
def pathJoin (root name : Str) : Str := root ++ '/' :: name

/-- `digest_to_blob_path` (identical in `lib.rs`, `main.rs` and the inner
crate). -/
def digest_to_blob_path (blobs_root digest : Str) : Str :=
  match stripPfx sha256Pfx digest with
  | some rest => pathJoin blobs_root ("sha256-".toList ++ rest)
  | none => pathJoin blobs_root (digest.map fun c => if c = ':' then '-' else c)

/-- `build_blob_path_info`.  The filesystem metadata probe
(`fs::metadata(&path).len()`) is modelled by the oracle `fs`, returning
the byte size when the file exists. -/
def build_blob_path_info (l : LayerInfo) (primary : Bool)
    (fs : Str → Option Nat) (blobs_root : Str) : BlobPathInfo :=
  let path := digest_to_blob_path blobs_root l.digest
  match fs path with
  | some a =>
    { digest := l.digest, media_type := l.media_type, declared_size := l.size,
      path := path, exists' := true,
      size_ok := l.size.map fun decl => decide (decl = a),
      actual_size := some a, primary := primary }
  | none =>
    { digest := l.digest, media_type := l.media_type, declared_size := l.size,
      path := path, exists' := false, size_ok := none, actual_size := none,
      primary := primary }

/-- The primary-selection loop of `build_blob_infos` in `lib.rs` and the
inner crate: fold over the enumerated layers keeping
`(primary_digest_idx, max_size)`, overwriting only on strictly greater
declared size. -/
def primaryLoop : List (Nat × LayerInfo) → Option Nat × Nat → Option Nat × Nat
  | [], st => st
  | (i, l) :: rest, (idx, mx) =>
    match l.size with
    | some sz =>
      if sz > mx then primaryLoop rest (some i, sz)
      else primaryLoop rest (idx, mx)
    | none => primaryLoop rest (idx, mx)

/-- `build_blob_infos` from `lib.rs` (the inner crate's copy is
semantically identical): pick the primary digest, then build the info
list, layers in order followed by the config. -/
def build_blob_infos (layers : List LayerInfo) (config : Option LayerInfo)
    (fs : Str → Option Nat) (blobs_root : Str) :
    Option Str × List BlobPathInfo :=
  let st := primaryLoop layers.enum (none, 0)
  let primary_digest :=
    match st.1 with
    | some i =>
      match layers[i]? with
      | some l => some l.digest
      | none => config.map (·.digest)
    | none => config.map (·.digest)
  let out :=
    layers.map (fun l => build_blob_path_info l false fs blobs_root) ++
      (match config with
       | some cfg => [build_blob_path_info cfg false fs blobs_root]
       | none => [])
  (primary_digest, out)

/-- The primary-selection loop of `build_blob_infos` in `main.rs`, which
tracks the digest directly. -/
def primaryLoopMain : List LayerInfo → Option Str × Nat → Option Str × Nat
  | [], st => st
  | l :: rest, (pd, mx) =>
    match l.size with
    | some sz =>
      if sz > mx then primaryLoopMain rest (some l.digest, sz)
      else primaryLoopMain rest (pd, mx)
    | none => primaryLoopMain rest (pd, mx)

/-- `build_blob_infos` from `main.rs`: same loop, but with an extra
fallback to the first layer when no layer was selected. -/
def build_blob_infos_main (layers : List LayerInfo) (config : Option LayerInfo)
    (fs : Str → Option Nat) (blobs_root : Str) :
    Option Str × List BlobPathInfo :=
  let st := primaryLoopMain layers (none, 0)
  let primary_digest :=
    match st.1 with
    | some d => some d
    | none =>
      match layers.head? with
      | some first => some first.digest
      | none => config.map (·.digest)
  let out :=
    layers.map (fun l => build_blob_path_info l false fs blobs_root) ++
      (match config with
       | some cfg => [build_blob_path_info cfg false fs blobs_root]
       | none => [])
  (primary_digest, out)

/-- The primary-marking pass (`for bi in &mut infos { if bi.digest == pd
{ bi.primary = true } }`). -/
def mark_primary (pd : Option Str) (infos : List BlobPathInfo) :
    List BlobPathInfo :=
  match pd with
  | none => infos
  | some d =>
    infos.map fun bi =>
      if bi.digest = d then { bi with primary := true } else bi

/-- `gather_blob_info` from `lib.rs`: primary blob path plus marked info
list. -/
def gather_blob_info (layers : List LayerInfo) (config : Option LayerInfo)
    (fs : Str → Option Nat) (blobs_root : Str) :
    Option Str × List BlobPathInfo :=
  let r := build_blob_infos layers config fs blobs_root;
  (r.1.map fun d => digest_to_blob_path blobs_root d, mark_primary r.1 r.2)

/-- Modelled from the claim (C2): the digest of the layer with the
strictly largest declared size among layers that declare a size (ties
keep the earliest layer); if no layer declares a size, the config's
digest. -/
def claim_best : List LayerInfo → Option (Nat × Str) → Option (Nat × Str)
  | [], acc => acc
  | l :: rest, acc =>
    match l.size, acc with
    | some sz, none => claim_best rest (some (sz, l.digest))
    | some sz, some (b, d) =>
      claim_best rest (if sz > b then some (sz, l.digest) else some (b, d))
    | none, _ => claim_best rest acc

def claim_primary (layers : List LayerInfo) (config : Option LayerInfo) :
    Option Str :=
  match claim_best layers none with
  | some x => some x.2
  | none => config.map (·.digest)

/-- The amended selection rule: as `claim_primary`, but only layers
declaring a strictly positive size qualify. -/
def amended_best : List LayerInfo → Option (Nat × Str) → Option (Nat × Str)
  | [], acc => acc
  | l :: rest, acc =>
    match l.size with
    | some sz =>
      if sz > (match acc with | some x => x.1 | none => 0) then
        amended_best rest (some (sz, l.digest))
      else amended_best rest acc
    | none => amended_best rest acc

def amended_primary (layers : List LayerInfo) (config : Option LayerInfo) :
    Option Str :=
  match amended_best layers none with
  | some x => some x.2
  | none => config.map (·.digest)

/-- Simulation invariant relating the index-tracking loop state of
`build_blob_infos` to the digest-tracking fold `amended_best`, over the
full layer list. -/
def PrimaryRel (full : List LayerInfo) (st : Option Nat × Nat)
    (acc : Option (Nat × Str)) : Prop :=
  match st.1, acc with
  | none, none => st.2 = 0
  | some i, some x =>
    st.2 = x.1 ∧ ∃ l, full[i]? = some l ∧ l.digest = x.2 ∧ l.size = some x.1
  | _, _ => False

/-- `compute_total_size`: running `(sum, any)` over layer sizes then the
config size. -/
def compute_total_size (layers : List LayerInfo) (config : Option LayerInfo) :
    Option Nat :=
  let s1 := layers.foldl
    (fun acc l =>
      match l.size with
      | some sz => (acc.1 + sz, true)
      | none => acc) ((0 : Nat), false)
  let s2 :=
    match config with
    | some cfg =>
      match cfg.size with
      | some sz => (s1.1 + sz, true)
      | none => s1
    | none => s1
  if s2.2 then some s2.1 else none

/-! ## Model identity (`models.rs`, `lib.rs`, `main.rs`) -/

def DEFAULT_HOST : Str := "registry.ollama.ai".toList
def LIBRARY_NS : Str := "library".toList

/-- `normalize_name` / `ModelId::normalize` (identical in all three
copies).  Rust's guarded match arms are rendered as an if-chain per
pattern group; the fall-through order is preserved. -/
def normalize_name (host nspace : Option Str) (model tag : Str) : Str :=
  match host, nspace with
  | some h, some ns =>
    if h = DEFAULT_HOST ∧ ns = LIBRARY_NS then model ++ ':' :: tag
    else if h = DEFAULT_HOST then ns ++ '/' :: model ++ ':' :: tag
    else h ++ '/' :: ns ++ '/' :: model ++ ':' :: tag
  | none, some ns =>
    if ns = LIBRARY_NS then model ++ ':' :: tag
    else ns ++ '/' :: model ++ ':' :: tag
  | _, _ => model ++ ':' :: tag

/-- Modelled from the spec (§4.1 table), rows evaluated top to bottom on
first match; "any" in the host column of row 5 ranges over present
namespaces, row 6 catches the absent namespace. -/
def spec_normalize (host nspace : Option Str) (model tag : Str) : Str :=
  match nspace with
  | some ns =>
    if host = some DEFAULT_HOST ∧ ns = LIBRARY_NS then model ++ ':' :: tag
    else if host = some DEFAULT_HOST then ns ++ '/' :: model ++ ':' :: tag
    else if host = none ∧ ns = LIBRARY_NS then model ++ ':' :: tag
    else if host = none then ns ++ '/' :: model ++ ':' :: tag
    else
      match host with
      | some h => h ++ '/' :: ns ++ '/' :: model ++ ':' :: tag
      | none => model ++ ':' :: tag
  | none => model ++ ':' :: tag

/-- Rust `str::starts_with('.')`. -/
def startsWithDot : Str → Bool
  | [] => false
  | c :: _ => c = '.'

/-- `parse_components` (identical logic in `lib.rs`, `main.rs` and the
inner crate). -/
def parse_components (comps : List Str) (include_hidden : Bool) :
    Option (Option Str × Option Str × Str × Str) :=
  if ¬(comps.length = 4 ∨ comps.length = 3) then none
  else if ¬include_hidden ∧ startsWithDot (comps.getLast?.getD []) then none
  else if ¬include_hidden ∧
      (comps.take (comps.length - 1)).any startsWithDot then none
  else
    match comps with
    | [h, ns, m, t] => some (some h, some ns, m, t)
    | [ns, m, t] => some (none, some ns, m, t)
    | _ => none

/-- The positional mapping of accepted segment lists. -/
def posMap : List Str → Option (Option Str × Option Str × Str × Str)
  | [h, ns, m, t] => some (some h, some ns, m, t)
  | [ns, m, t] => some (none, some ns, m, t)
  | _ => none

/-- Modelled from the claim (C4): accept exactly 3 or 4 segments, and
unless the hidden flag is set no segment may begin with `'.'`; on
acceptance map positionally. -/
def spec_resolver (comps : List Str) (include_hidden : Bool) :
    Option (Option Str × Option Str × Str × Str) :=
  if (comps.length = 3 ∨ comps.length = 4) ∧
      (include_hidden = true ∨ ∀ c ∈ comps, startsWithDot c = false) then
    posMap comps
  else none

/-! ## Scan pipelines (`lib.rs`, `main.rs`, inner crate)

The directory walk and manifest reads are I/O; a scan is modelled as a
pure function of the traversal-ordered entry list.  Each `ScanEntry`
carries the relative path components, whether the entry is a directory,
the decoded manifest (`none` models a read/JSON failure), the manifest
path and its modification time. -/

structure ScanEntry where
  comps : List Str
  isDir : Bool
  manifest : Option ManifestData
  path : Str
  mtime : Option Nat
deriving DecidableEq

/-- `ListedModel` (flattened `main.rs`/`lib.rs` shape; the inner crate
nests the identity in a `ModelId` but carries the same data). -/
structure ListedModel where
  name : Str
  host : Option Str
  nspace : Option Str
  model : Str
  tag : Str
  manifest_path : Str
  layers : Option (List LayerInfo)
  config : Option LayerInfo
  total_size : Option Nat
  mtime : Option Nat
  primary_blob_path : Option Str
  blob_paths : Option (List BlobPathInfo)
deriving DecidableEq

/-- `build_listed_model` from `lib.rs`. -/
def build_listed_model (host nspace : Option Str) (model tag : Str)
    (manifest_path : Str) (mtimeO : Option Nat) (layers : List LayerInfo)
    (config : Option LayerInfo) (verbose : Bool) (blobs_root : Str)
    (want_blob_paths : Bool) (fs : Str → Option Nat) : ListedModel :=
  let display_name := normalize_name host nspace model tag
  let total_size := if verbose then compute_total_size layers config else none
  let mtime := if verbose then mtimeO else none
  let pb :=
    if want_blob_paths || verbose then gather_blob_info layers config fs blobs_root
    else (none, [])
  { name := display_name, host := host, nspace := nspace, model := model,
    tag := tag, manifest_path := manifest_path,
    layers := if verbose then some layers else none, config := config,
    total_size := total_size, mtime := mtime, primary_blob_path := pb.1,
    blob_paths := if pb.2 = [] then none else some pb.2 }

/-- `process_entry` from `lib.rs` (directory skip, relative components,
identity resolution, manifest decode). -/
def process_entry (e : ScanEntry) (include_hidden verbose want_blob_paths : Bool)
    (fs : Str → Option Nat) (blobs_root : Str) : Option ListedModel :=
  if e.isDir then none
  else if e.comps = [] then none
  else
    match parse_components e.comps include_hidden with
    | none => none
    | some (host, nspace, model, tag) =>
      match e.manifest with
      | none => none
      | some m =>
        some (build_listed_model host nspace model tag e.path e.mtime
          m.layers m.config verbose blobs_root want_blob_paths fs)

/-- `scan_manifests` from `lib.rs`: push in traversal order; **no sort**. -/
def scan_manifests (entries : List ScanEntry)
    (include_hidden verbose blob_paths : Bool) (fs : Str → Option Nat)
    (blobs_root : Str) : List ListedModel :=
  entries.filterMap fun e =>
    process_entry e include_hidden verbose blob_paths fs blobs_root

/-- The comparison `a.name.cmp(&b.name)` as an order on models.  Rust
compares `String`s byte-wise; on UTF-8 that equals the code-point
lexicographic order used by `List Char`. -/
def modelLe (a b : ListedModel) : Prop := a.name ≤ b.name

instance : DecidableRel modelLe := fun a b => by
  unfold modelLe; infer_instance

instance : IsTotal ListedModel modelLe := ⟨fun a b => le_total a.name b.name⟩

instance : IsTrans ListedModel modelLe := ⟨fun _ _ _ h1 h2 => le_trans h1 h2⟩

/-- `slice::sort_by` (stable by contract), modelled by insertion sort,
which realizes the stable-sort contract. -/
def sort_by_name (l : List ListedModel) : List ListedModel :=
  List.insertionSort modelLe l

/-- `slice::sort_unstable_by`: a correct sort with *no* stability
guarantee; modelled by a correct sort (no stability property is claimed
of it). -/
def sort_unstable_by_name (l : List ListedModel) : List ListedModel :=
  List.insertionSort modelLe l

/-- `build_listed_model` from the inner crate: blob info is gathered in
verbose mode only. -/
def build_listed_model_inner (host nspace : Option Str) (model tag : Str)
    (manifest_path : Str) (mtimeO : Option Nat) (layers : List LayerInfo)
    (config : Option LayerInfo) (verbose : Bool) (blobs_root : Str)
    (fs : Str → Option Nat) : ListedModel :=
  let display_name := normalize_name host nspace model tag
  let total_size := if verbose then compute_total_size layers config else none
  let mtime := if verbose then mtimeO else none
  let pb :=
    if verbose then gather_blob_info layers config fs blobs_root
    else (none, [])
  { name := display_name, host := host, nspace := nspace, model := model,
    tag := tag, manifest_path := manifest_path,
    layers := if verbose then some layers else none, config := config,
    total_size := total_size, mtime := mtime, primary_blob_path := pb.1,
    blob_paths := if pb.2 = [] then none else some pb.2 }

/-- `process_entry` from the inner crate. -/
def process_entry_inner (e : ScanEntry) (include_hidden verbose : Bool)
    (fs : Str → Option Nat) (blobs_root : Str) : Option ListedModel :=
  if e.isDir then none
  else if e.comps = [] then none
  else
    match parse_components e.comps include_hidden with
    | none => none
    | some (host, nspace, model, tag) =>
      match e.manifest with
      | none => none
      | some m =>
        some (build_listed_model_inner host nspace model tag e.path e.mtime
          m.layers m.config verbose blobs_root fs)

/-- `scan_manifests` from the inner crate: collect then
`sort_unstable_by` on the display name. -/
def scan_manifests_inner (entries : List ScanEntry)
    (include_hidden verbose : Bool) (fs : Str → Option Nat)
    (blobs_root : Str) : List ListedModel :=
  sort_unstable_by_name (entries.filterMap fun e =>
    process_entry_inner e include_hidden verbose fs blobs_root)

/-- The per-entry body of `main.rs::scan_manifests` (blob info only when
`--blob-paths`; `blob_paths` is `Some` even when empty; `main.rs` uses
its own `build_blob_infos` variant). -/
def process_entry_main (e : ScanEntry)
    (include_hidden verbose blob_paths : Bool) (fs : Str → Option Nat)
    (blobs_root : Str) : Option ListedModel :=
  if e.isDir then none
  else if e.comps = [] then none
  else
    match parse_components e.comps include_hidden with
    | none => none
    | some (host, nspace, model, tag) =>
      match e.manifest with
      | none => none
      | some m =>
        let display_name := normalize_name host nspace model tag
        let total_size :=
          if verbose then compute_total_size m.layers m.config else none
        let mtime := if verbose then e.mtime else none
        let pb :=
          if blob_paths then
            let r := build_blob_infos_main m.layers m.config fs blobs_root;
            (r.1.map fun d => digest_to_blob_path blobs_root d,
              some (mark_primary r.1 r.2))
          else (none, none)
        some
          { name := display_name, host := host, nspace := nspace,
            model := model, tag := tag, manifest_path := e.path,
            layers := if verbose then some m.layers else none,
            config := m.config, total_size := total_size, mtime := mtime,
            primary_blob_path := pb.1, blob_paths := pb.2 }

/-- `main.rs::scan_manifests`: the collection loop (no sort here). -/
def scan_manifests_main (entries : List ScanEntry)
    (include_hidden verbose blob_paths : Bool) (fs : Str → Option Nat)
    (blobs_root : Str) : List ListedModel :=
  entries.filterMap fun e =>
    process_entry_main e include_hidden verbose blob_paths fs blobs_root

/-- `main.rs::main`: scan, then `models.sort_by(|a, b| a.name.cmp(&b.name))`. -/
def main_result (entries : List ScanEntry)
    (include_hidden verbose blob_paths : Bool) (fs : Str → Option Nat)
    (blobs_root : Str) : List ListedModel :=
  sort_by_name
    (scan_manifests_main entries include_hidden verbose blob_paths fs blobs_root)

/-! ## Lemmas about trimming -/

theorem headNotWS_dropWhile (l : Str) : headNotWS (l.dropWhile isWS) = true := by
  induction l with
  | nil => rfl
  | cons c cs ih =>
    by_cases h : isWS c = true
    · simpa [List.dropWhile_cons, h] using ih
    · simp [List.dropWhile_cons, h, headNotWS]

theorem dropWhile_eq_self_of_headNotWS {l : Str} (h : headNotWS l = true) :
    l.dropWhile isWS = l := by
  cases l with
  | nil => rfl
  | cons c cs =>
    simp only [headNotWS, Bool.not_eq_true'] at h
    simp [List.dropWhile_cons, h]

theorem rustTrim_eq_self {l : Str} (h1 : headNotWS l = true)
    (h2 : headNotWS l.reverse = true) : rustTrim l = l := by
  unfold rustTrim
  rw [dropWhile_eq_self_of_headNotWS h1, dropWhile_eq_self_of_headNotWS h2,
    List.reverse_reverse]

theorem dropWhile_suffix_exists (l : Str) :
    ∃ t, t ++ l.dropWhile isWS = l := by
  induction l with
  | nil => exact ⟨[], rfl⟩
  | cons c cs ih =>
    by_cases h : isWS c = true
    · obtain ⟨t, ht⟩ := ih
      exact ⟨c :: t, by simp [List.dropWhile_cons, h, ht]⟩
    · exact ⟨[], by simp [List.dropWhile_cons, h]⟩

theorem getLast?_append_ne_nil {a b : Str} (h : b ≠ []) :
    (a ++ b).getLast? = b.getLast? := by
  induction a with
  | nil => rfl
  | cons c cs ih =>
    rw [List.cons_append, List.getLast?_cons, ih]
    cases b with
    | nil => exact absurd rfl h
    | cons d ds => simp [List.getLast?]

theorem headNotWS_reverse_dropWhile_reverse {m : Str} (h : headNotWS m = true) :
    headNotWS (m.reverse.dropWhile isWS).reverse = true := by
  cases hD : (m.reverse.dropWhile isWS).reverse with
  | nil => rfl
  | cons c t =>
    simp only [headNotWS, Bool.not_eq_true']
    -- `c` is the last character of the dropWhile result, hence the last
    -- character of `m.reverse`, hence the head of `m`.
    have hg : (m.reverse.dropWhile isWS).getLast? = some c := by
      rw [← List.head?_reverse, hD]; rfl
    obtain ⟨t', ht'⟩ := dropWhile_suffix_exists m.reverse
    have hne : m.reverse.dropWhile isWS ≠ [] := by
      intro hnil
      rw [hnil] at hD
      exact absurd hD.symm (List.cons_ne_nil c t)
    have : m.reverse.getLast? = some c := by
      rw [← ht', getLast?_append_ne_nil hne, hg]
    rw [List.getLast?_reverse] at this
    cases m with
    | nil => simp at this
    | cons x xs =>
      simp only [List.head?_cons, Option.some.injEq] at this
      subst this
      simpa [headNotWS, Bool.not_eq_true'] using h

theorem headNotWS_rustTrim (l : Str) : headNotWS (rustTrim l) = true :=
  headNotWS_reverse_dropWhile_reverse (headNotWS_dropWhile l)

theorem headNotWS_rustTrim_reverse (l : Str) :
    headNotWS (rustTrim l).reverse = true := by
  unfold rustTrim
  rw [List.reverse_reverse]
  exact headNotWS_dropWhile _

theorem rustTrim_idem (l : Str) : rustTrim (rustTrim l) = rustTrim l :=
  rustTrim_eq_self (headNotWS_rustTrim l) (headNotWS_rustTrim_reverse l)

theorem mem_of_mem_dropWhile {c : Char} {l : Str}
    (h : c ∈ l.dropWhile isWS) : c ∈ l := by
  induction l with
  | nil => simp at h
  | cons x xs ih =>
    by_cases hx : isWS x = true
    · rw [List.dropWhile_cons, if_pos hx] at h
      exact List.mem_cons_of_mem _ (ih h)
    · rw [List.dropWhile_cons, if_neg hx] at h
      exact h

theorem not_mem_rustTrim {c : Char} {l : Str} (h : c ∉ l) :
    c ∉ rustTrim l := by
  intro hc
  apply h
  unfold rustTrim at hc
  rw [List.mem_reverse] at hc
  have := mem_of_mem_dropWhile hc
  rw [List.mem_reverse] at this
  exact mem_of_mem_dropWhile this

theorem rustTrim_cons_ws {c : Char} (hc : isWS c = true) (l : Str) :
    rustTrim (c :: l) = rustTrim l := by
  unfold rustTrim
  rw [List.dropWhile_cons, if_pos hc]

/-! ## Lemmas about `splitChar` -/

theorem splitChar_ne_nil (sep : Char) (l : Str) : splitChar sep l ≠ [] := by
  cases l with
  | nil => simp [splitChar]
  | cons c cs =>
    by_cases h : c = sep
    · simp [splitChar, h]
    · simp only [splitChar, if_neg h]
      cases splitChar sep cs <;> simp

theorem splitChar_append (sep : Char) {u : Str} (hu : sep ∉ u) (r : Str) :
    splitChar sep (u ++ sep :: r) = u :: splitChar sep r := by
  induction u with
  | nil => simp [splitChar]
  | cons c cs ih =>
    have hc : ¬c = sep := fun h => hu (h ▸ List.mem_cons_self c cs)
    have hcs : sep ∉ cs := fun h => hu (List.mem_cons_of_mem _ h)
    simp only [List.cons_append, splitChar, List.append_eq, if_neg hc, ih hcs]

theorem splitChar_no_sep (sep : Char) {u : Str} (hu : sep ∉ u) :
    splitChar sep u = [u] := by
  induction u with
  | nil => rfl
  | cons c cs ih =>
    have hc : ¬c = sep := fun h => hu (h ▸ List.mem_cons_self c cs)
    have hcs : sep ∉ cs := fun h => hu (List.mem_cons_of_mem _ h)
    simp [splitChar, if_neg hc, ih hcs]

theorem not_mem_of_mem_splitChar {sep : Char} {l v : Str}
    (hv : v ∈ splitChar sep l) : sep ∉ v := by
  induction l generalizing v with
  | nil =>
    simp only [splitChar, List.mem_singleton] at hv
    subst hv; simp
  | cons c cs ih =>
    by_cases h : c = sep
    · simp only [splitChar, if_pos h, List.mem_cons] at hv
      rcases hv with hv | hv
      · subst hv; simp
      · exact ih hv
    · simp only [splitChar, if_neg h] at hv
      cases hsc : splitChar sep cs with
      | nil => exact absurd hsc (splitChar_ne_nil sep cs)
      | cons hd tl =>
        rw [hsc] at hv
        rcases List.mem_cons.mp hv with hv | hv
        · subst hv
          intro hmem
          rcases List.mem_cons.mp hmem with hmem | hmem
          · exact h hmem.symm
          · exact ih (hsc ▸ List.mem_cons_self hd tl) hmem
        · exact ih (hsc ▸ List.mem_cons_of_mem hd hv)

theorem splitChar_headD_takeWhile (sep : Char) (l : Str) :
    (splitChar sep l).headD [] = l.takeWhile (fun c => !(c = sep)) := by
  induction l with
  | nil => rfl
  | cons c cs ih =>
    by_cases h : c = sep
    · simp [splitChar, h, List.takeWhile_cons]
    · simp only [splitChar, if_neg h, List.takeWhile_cons]
      cases hsc : splitChar sep cs with
      | nil => exact absurd hsc (splitChar_ne_nil sep cs)
      | cons hd tl =>
        simp only [List.headD_cons]
        rw [hsc] at ih
        simp only [List.headD_cons] at ih
        simp [h, ih]

/-! ## Lemmas about `splitOnce` -/

theorem splitOnce_no_sep {sep : Char} {p : Str} (h : sep ∉ p) :
    splitOnce sep p = (p, none) := by
  induction p with
  | nil => rfl
  | cons c cs ih =>
    have hc : ¬c = sep := fun hh => h (hh ▸ List.mem_cons_self c cs)
    have hcs : sep ∉ cs := fun hh => h (List.mem_cons_of_mem _ hh)
    simp [splitOnce, if_neg hc, ih hcs]

theorem splitOnce_append {sep : Char} {k : Str} (hk : sep ∉ k) (v : Str) :
    splitOnce sep (k ++ sep :: v) = (k, some v) := by
  induction k with
  | nil => simp [splitOnce]
  | cons c cs ih =>
    have hc : ¬c = sep := fun hh => hk (hh ▸ List.mem_cons_self c cs)
    have hcs : sep ∉ cs := fun hh => hk (List.mem_cons_of_mem _ hh)
    simp [splitOnce, if_neg hc, ih hcs]

theorem splitOnce_some {sep : Char} {p a b : Str}
    (h : splitOnce sep p = (a, some b)) : p = a ++ sep :: b := by
  induction p generalizing a with
  | nil => simp [splitOnce] at h
  | cons c cs ih =>
    by_cases hc : c = sep
    · simp only [splitOnce, if_pos hc, Prod.mk.injEq] at h
      obtain ⟨ha, hb⟩ := h
      simp only [Option.some.injEq] at hb
      subst ha; subst hb; subst hc
      rfl
    · simp only [splitOnce, if_neg hc, Prod.mk.injEq] at h
      obtain ⟨ha, hb⟩ := h
      cases hsc : (splitOnce sep cs).2 with
      | none => rw [hsc] at hb; exact absurd hb (by simp)
      | some b' =>
        rw [hsc] at hb
        have hb' : b' = b := by simpa using hb
        subst hb'
        have hcs : cs = (splitOnce sep cs).1 ++ sep :: b' :=
          ih (show splitOnce sep cs = ((splitOnce sep cs).1, some b') by
            rw [← hsc])
        rw [← ha, List.cons_append]
        exact congrArg (c :: ·) hcs

/-! ## Reassembly of serialized media types

`Display` renders parameters as `"; key=value"` chunks; `renderParams`
captures that rendering so the serializer output can be reasoned about
uniformly. -/

theorem goodVal.trim {v : Str} (h : goodVal v) : rustTrim v = v :=
  rustTrim_eq_self h.1 h.2.1

theorem headNotWS_append_left {a : Str} (h : headNotWS a = true)
    (hne : a ≠ []) (b : Str) : headNotWS (a ++ b) = true := by
  cases a with
  | nil => exact absurd rfl hne
  | cons c cs => simpa [headNotWS] using h

theorem headNotWS_reverse_append_eq {v : Str}
    (h : headNotWS v.reverse = true) (u : Str) :
    headNotWS (u ++ '=' :: v).reverse = true := by
  cases hv : v.reverse with
  | nil =>
    have : v = [] := by simpa using congrArg List.reverse hv
    subst this
    simp [headNotWS, isWS]
  | cons c t =>
    rw [List.reverse_append, List.reverse_cons, hv]
    rw [hv] at h
    simpa [headNotWS] using h

theorem headNotWS_reverse_render {b : Str} {ps : List (Str × Str)}
    (hps : ps ≠ [])
    (hv : ∀ kv ∈ ps, headNotWS (Prod.snd kv).reverse = true) :
    headNotWS (b ++ renderParams ps).reverse = true := by
  induction ps generalizing b with
  | nil => exact absurd rfl hps
  | cons kv rest ih =>
    obtain ⟨k, v⟩ := kv
    cases rest with
    | nil =>
      have h1 : b ++ renderParams [(k, v)] = (b ++ (';' :: ' ' :: k)) ++ '=' :: v := by
        simp [renderParams, List.append_assoc]
      rw [h1]
      exact headNotWS_reverse_append_eq (hv (k, v) (List.mem_singleton.mpr rfl)) _
    | cons kv2 rest2 =>
      have h1 : b ++ renderParams ((k, v) :: kv2 :: rest2) =
          (b ++ (';' :: ' ' :: (k ++ '=' :: v))) ++ renderParams (kv2 :: rest2) := by
        simp [renderParams, List.append_assoc]
      rw [h1]
      exact ih (List.cons_ne_nil _ _)
        (fun kv2' hm => hv kv2' (List.mem_cons_of_mem _ hm))

theorem splitChar_renderParams {b : Str} {ps : List (Str × Str)}
    (hb : ';' ∉ b)
    (hps : ∀ kv ∈ ps, ';' ∉ (Prod.fst kv) ∧ ';' ∉ (Prod.snd kv)) :
    splitChar ';' (b ++ renderParams ps) =
      b :: ps.map (fun kv => ' ' :: (kv.1 ++ '=' :: kv.2)) := by
  induction ps generalizing b with
  | nil => simp [renderParams, splitChar_no_sep ';' hb]
  | cons kv rest ih =>
    obtain ⟨k, v⟩ := kv
    obtain ⟨hk, hv⟩ := hps (k, v) (List.mem_cons_self _ _)
    have h1 : b ++ renderParams ((k, v) :: rest) =
        b ++ ';' :: ((' ' :: (k ++ '=' :: v)) ++ renderParams rest) := by
      simp [renderParams]
    rw [h1, splitChar_append ';' hb]
    have hchunk : ';' ∉ (' ' :: (k ++ '=' :: v)) := by
      intro hm
      rcases List.mem_cons.mp hm with hm | hm
      · exact absurd hm.symm (by decide)
      · rcases List.mem_append.mp hm with hm | hm
        · exact hk hm
        · rcases List.mem_cons.mp hm with hm | hm
          · exact absurd hm.symm (by decide)
          · exact hv hm
    rw [ih hchunk (fun kv' hm => hps kv' (List.mem_cons_of_mem _ hm))]
    simp

theorem rustTrim_chunk {k v : Str} (hk : goodKey k) (hv : goodVal v) :
    rustTrim (' ' :: (k ++ '=' :: v)) = k ++ '=' :: v := by
  rw [rustTrim_cons_ws (by decide)]
  have hkh : headNotWS k = true := hk.2.1 ▸ headNotWS_rustTrim k
  exact rustTrim_eq_self (headNotWS_append_left hkh hk.1 _)
    (headNotWS_reverse_append_eq hv.2.1 k)

theorem collectParams_flat {ps : List (Str × Str)}
    (h : ∀ kv ∈ ps, goodKey (Prod.fst kv) ∧ goodVal (Prod.snd kv)) :
    collectParams (ps.map fun kv => kv.1 ++ '=' :: kv.2) = ps := by
  induction ps with
  | nil => rfl
  | cons kv rest ih =>
    obtain ⟨k, v⟩ := kv
    obtain ⟨hk, hv⟩ := h (k, v) (List.mem_cons_self _ _)
    have hne : k ++ '=' :: v ≠ [] := by
      cases k with
      | nil => exact absurd rfl hk.1
      | cons c cs => simp
    simp only [List.map_cons, collectParams, if_neg hne]
    rw [splitOnce_append hk.2.2.2]
    simp only [Option.getD_some]
    rw [hk.2.1, hv.trim, if_neg hk.1]
    exact congrArg _ (ih fun kv' hm => h kv' (List.mem_cons_of_mem _ hm))

/-- Parsing a serializer-shaped string `base ++ params` recovers the base
and the parameter list exactly. -/
theorem fromStr_render {b : Str} {ps : List (Str × Str)}
    (hb0 : b ≠ []) (hbh : headNotWS b = true) (hbt : rustTrim b = b)
    (hbs : ';' ∉ b) (hps : ps ≠ [])
    (hgood : ∀ kv ∈ ps, goodKey (Prod.fst kv) ∧ goodVal (Prod.snd kv)) :
    fromStr (b ++ renderParams ps) =
      dispatch b ps (b ++ renderParams ps) := by
  have hS : rustTrim (b ++ renderParams ps) = b ++ renderParams ps :=
    rustTrim_eq_self (headNotWS_append_left hbh hb0 _)
      (headNotWS_reverse_render hps fun kv hm => ((hgood kv hm).2).2.1)
  have hSne : b ++ renderParams ps ≠ [] := by
    intro hh
    exact hb0 (List.append_eq_nil.mp hh).1
  have hsplit := splitChar_renderParams hbs
    (fun kv hm => ⟨((hgood kv hm).1).2.2.1, ((hgood kv hm).2).2.2⟩)
  simp only [fromStr, hS, if_neg hSne, hsplit, List.map_cons, hbt,
    List.headD_cons, List.tail_cons, List.map_map]
  have hmap : (ps.map ((rustTrim ·) ∘ fun kv => ' ' :: (kv.1 ++ '=' :: kv.2))) =
      ps.map (fun kv => kv.1 ++ '=' :: kv.2) := by
    apply List.map_congr_left
    intro kv hm
    exact rustTrim_chunk ((hgood kv hm).1) ((hgood kv hm).2)
  rw [hmap, collectParams_flat hgood]

/-! ## Values produced by the parser are trim-stable and `';'`-free -/

theorem collectParams_goodVal {chunks : List Str} {kv : Str × Str}
    (hm : kv ∈ collectParams chunks) (hch : ∀ p ∈ chunks, ';' ∉ p) :
    goodVal kv.2 := by
  induction chunks with
  | nil => simp [collectParams] at hm
  | cons p ps ih =>
    have hps : ∀ q ∈ ps, ';' ∉ q := fun q hq => hch q (List.mem_cons_of_mem _ hq)
    by_cases hp : p = []
    · simp only [collectParams, if_pos hp] at hm
      exact ih hm hps
    · simp only [collectParams, if_neg hp] at hm
      by_cases hk : rustTrim (splitOnce '=' p).1 = []
      · rw [if_pos hk] at hm
        exact ih hm hps
      · rw [if_neg hk] at hm
        rcases List.mem_cons.mp hm with rfl | hm'
        · refine ⟨headNotWS_rustTrim _, headNotWS_rustTrim_reverse _, ?_⟩
          cases hsp : (splitOnce '=' p).2 with
          | none => simp [rustTrim]
          | some b =>
            have hpeq : p = (splitOnce '=' p).1 ++ '=' :: b :=
              splitOnce_some
                (show splitOnce '=' p = ((splitOnce '=' p).1, some b) by
                  rw [← hsp])
            simp only [Option.getD_some]
            apply not_mem_rustTrim
            intro hb
            apply hch p (List.mem_cons_self _ _)
            rw [hpeq]
            exact List.mem_append.mpr (Or.inr (List.mem_cons_of_mem _ hb))
        · exact ih hm' hps

theorem getParam_goodVal {l key v : Str}
    (h : getParam
      (collectParams ((splitChar ';' l).map rustTrim).tail) key = some v) :
    goodVal v := by
  have hch : ∀ p ∈ ((splitChar ';' l).map rustTrim).tail, ';' ∉ p := by
    intro p hp
    have hp' : p ∈ (splitChar ';' l).map rustTrim := List.mem_of_mem_tail hp
    obtain ⟨q, hq, rfl⟩ := List.mem_map.mp hp'
    exact not_mem_rustTrim (not_mem_of_mem_splitChar hq)
  unfold getParam at h
  cases hf : List.find? (fun kv => eqIgnoreAsciiCase kv.1 key)
      (collectParams ((splitChar ';' l).map rustTrim).tail) with
  | none => rw [hf] at h; simp at h
  | some kv =>
    rw [hf] at h
    simp only [Option.map_some', Option.some.injEq] at h
    have hgv := collectParams_goodVal (List.mem_of_find?_eq_some hf) hch
    rwa [h] at hgv

/-! ## Round-trip for each parameterized variant -/

theorem display_Config_render (t : Str) :
    (OllamaMediaType.Config t).display = baseConfig ++ renderParams [(keyType, t)] := by
  simp only [OllamaMediaType.display, renderParams, List.append_nil]
  rfl

theorem display_Template_render (n : Str) :
    (OllamaMediaType.Template (some n)).display =
      baseTemplate ++ renderParams [(keyName, n)] := by
  simp only [OllamaMediaType.display, renderParams, List.append_nil]
  rfl

theorem display_Tensor_render (n d sraw : Str) (shp : Option (List Nat)) :
    (OllamaMediaType.Tensor n d sraw shp).display =
      baseTensor ++ renderParams [(keyName, n), (keyDtype, d), (keyShape, sraw)] := by
  simp only [OllamaMediaType.display, renderParams, List.append_nil,
    List.append_assoc, List.cons_append]
  rfl

theorem dispatch_config_eval (t : Str) (input : Str) :
    dispatch baseConfig [(keyType, t)] input = .ok (.Config t) := rfl

theorem dispatch_template_eval (n : Str) (input : Str) :
    dispatch baseTemplate [(keyName, n)] input = .ok (.Template (some n)) := rfl

theorem dispatch_tensor_eval (n d sraw : Str) (input : Str) :
    dispatch baseTensor [(keyName, n), (keyDtype, d), (keyShape, sraw)] input =
      match parse_shape sraw with
      | .error e => .error e
      | .ok shp => .ok (.Tensor n d sraw shp) := rfl

theorem goodKey_keyType : goodKey keyType := ⟨by decide, by decide, by decide, by decide⟩
theorem goodKey_keyName : goodKey keyName := ⟨by decide, by decide, by decide, by decide⟩
theorem goodKey_keyDtype : goodKey keyDtype := ⟨by decide, by decide, by decide, by decide⟩
theorem goodKey_keyShape : goodKey keyShape := ⟨by decide, by decide, by decide, by decide⟩

theorem fromStr_display_Config {t : Str} (h : goodVal t) :
    fromStr (OllamaMediaType.Config t).display = .ok (.Config t) := by
  rw [display_Config_render,
    fromStr_render (by decide) (by decide) (by decide) (by decide)
      (List.cons_ne_nil _ _) ?_, dispatch_config_eval]
  intro kv hm
  rcases List.mem_singleton.mp hm with rfl
  exact ⟨goodKey_keyType, h⟩

theorem fromStr_display_Template {n : Str} (h : goodVal n) :
    fromStr (OllamaMediaType.Template (some n)).display =
      .ok (.Template (some n)) := by
  rw [display_Template_render,
    fromStr_render (by decide) (by decide) (by decide) (by decide)
      (List.cons_ne_nil _ _) ?_, dispatch_template_eval]
  intro kv hm
  rcases List.mem_singleton.mp hm with rfl
  exact ⟨goodKey_keyName, h⟩

theorem fromStr_display_Tensor {n d sraw : Str} {shp : Option (List Nat)}
    (hn : goodVal n) (hd : goodVal d) (hs : goodVal sraw)
    (hshape : parse_shape sraw = .ok shp) :
    fromStr (OllamaMediaType.Tensor n d sraw shp).display =
      .ok (.Tensor n d sraw shp) := by
  rw [display_Tensor_render,
    fromStr_render (by decide) (by decide) (by decide) (by decide)
      (List.cons_ne_nil _ _) ?_, dispatch_tensor_eval, hshape]
  intro kv hm
  rcases List.mem_cons.mp hm with rfl | hm
  · exact ⟨goodKey_keyName, hn⟩
  rcases List.mem_cons.mp hm with rfl | hm
  · exact ⟨goodKey_keyDtype, hd⟩
  rcases List.mem_singleton.mp hm with rfl
  exact ⟨goodKey_keyShape, hs⟩

theorem fromStr_rustTrim (s : Str) : fromStr (rustTrim s) = fromStr s := by
  simp only [fromStr, rustTrim_idem]

theorem fromStr_eq (input0 : Str) :
    fromStr input0 =
      if rustTrim input0 = [] then .error .Empty
      else
        dispatch (((splitChar ';' (rustTrim input0)).map rustTrim).headD [])
          (collectParams ((splitChar ';' (rustTrim input0)).map rustTrim).tail)
          (rustTrim input0) := rfl

/-- Inversion: the possible shapes of a successful `dispatch` result. -/
theorem dispatch_ok_cases {base : Str} {params : List (Str × Str)}
    {input : Str} {v : OllamaMediaType}
    (h : dispatch base params input = .ok v) :
    (∃ t, getParam params keyType = some t ∧ v = .Config t) ∨
    (v = .Template (getParam params keyName)) ∨
    (∃ n d sraw shp, getParam params keyName = some n ∧
      getParam params keyDtype = some d ∧ getParam params keyShape = some sraw ∧
      parse_shape sraw = .ok shp ∧ v = .Tensor n d sraw shp) ∨
    (v = .Tokenizer ∨ v = .TokenizerConfig ∨ v = .License ∨ v = .Model ∨
      v = .Adapter ∨ v = .Projector ∨ v = .System ∨ v = .Params ∨
      v = .Messages ∨ v = .Prompt ∨ v = .EmbedLegacy) ∨
    (v = .Unknown input) := by
  unfold dispatch at h
  by_cases h1 : base = baseConfig
  · subst h1
    rw [if_pos rfl, show ensurePfx baseConfig = Except.ok () from rfl] at h
    dsimp only [] at h
    cases hgp : getParam params keyType with
    | none => rw [hgp] at h; exact absurd h (by simp)
    | some t =>
      rw [hgp] at h
      injection h with h
      exact Or.inl ⟨t, rfl, h.symm⟩
  rw [if_neg h1] at h
  by_cases h2 : base = baseTemplate
  · subst h2
    rw [if_pos rfl, show ensurePfx baseTemplate = Except.ok () from rfl] at h
    dsimp only [] at h
    injection h with h
    exact Or.inr (Or.inl h.symm)
  rw [if_neg h2] at h
  by_cases h3 : base = baseTensor
  · subst h3
    rw [if_pos rfl, show ensurePfx baseTensor = Except.ok () from rfl] at h
    dsimp only [] at h
    cases hn : getParam params keyName with
    | none => rw [hn] at h; exact absurd h (by simp)
    | some n =>
      rw [hn] at h
      dsimp only [] at h
      cases hd : getParam params keyDtype with
      | none => rw [hd] at h; exact absurd h (by simp)
      | some d =>
        rw [hd] at h
        dsimp only [] at h
        cases hsr : getParam params keyShape with
        | none => rw [hsr] at h; exact absurd h (by simp)
        | some sraw =>
          rw [hsr] at h
          dsimp only [] at h
          cases hsh : parse_shape sraw with
          | error e => rw [hsh] at h; exact absurd h (by simp)
          | ok shp =>
            rw [hsh] at h
            injection h with h
            exact Or.inr (Or.inr (Or.inl ⟨n, d, sraw, shp, rfl, rfl, rfl, hsh, h.symm⟩))
  rw [if_neg h3] at h
  by_cases h4 : base = baseTokenizer
  · rw [if_pos h4] at h; injection h with h; subst h; tauto
  rw [if_neg h4] at h
  by_cases h5 : base = baseTokenizerConfig
  · rw [if_pos h5] at h; injection h with h; subst h; tauto
  rw [if_neg h5] at h
  by_cases h6 : base = baseLicense
  · rw [if_pos h6] at h; injection h with h; subst h; tauto
  rw [if_neg h6] at h
  by_cases h7 : base = baseModel
  · rw [if_pos h7] at h; injection h with h; subst h; tauto
  rw [if_neg h7] at h
  by_cases h8 : base = baseAdapter
  · rw [if_pos h8] at h; injection h with h; subst h; tauto
  rw [if_neg h8] at h
  by_cases h9 : base = baseProjector
  · rw [if_pos h9] at h; injection h with h; subst h; tauto
  rw [if_neg h9] at h
  by_cases h10 : base = baseSystem
  · rw [if_pos h10] at h; injection h with h; subst h; tauto
  rw [if_neg h10] at h
  by_cases h11 : base = baseParams
  · rw [if_pos h11] at h; injection h with h; subst h; tauto
  rw [if_neg h11] at h
  by_cases h12 : base = baseMessages
  · rw [if_pos h12] at h; injection h with h; subst h; tauto
  rw [if_neg h12] at h
  by_cases h13 : base = basePrompt
  · rw [if_pos h13] at h; injection h with h; subst h; tauto
  rw [if_neg h13] at h
  by_cases h14 : base = baseEmbed
  · rw [if_pos h14] at h; injection h with h; subst h; tauto
  rw [if_neg h14] at h
  by_cases hp : pfxStr.isPrefixOf base = true
  · rw [if_pos hp] at h; injection h with h; subst h; tauto
  rw [if_neg hp] at h
  exact Except.noConfusion h

/-- Every successfully parsed value reparses from its own serialization. -/
theorem fromStr_ok_display {s : Str} {v : OllamaMediaType}
    (h : fromStr s = .ok v) : fromStr v.display = .ok v := by
  have h0 := h
  rw [fromStr_eq] at h
  by_cases hne : rustTrim s = []
  · rw [if_pos hne] at h
    exact Except.noConfusion h
  rw [if_neg hne] at h
  rcases dispatch_ok_cases h with
    ⟨t, hgp, rfl⟩ | hv | ⟨n, d, sraw, shp, hn, hd, hsr, hsh, rfl⟩ | hplain | hv
  · exact fromStr_display_Config (getParam_goodVal hgp)
  · subst hv
    cases hgp : getParam
        (collectParams ((splitChar ';' (rustTrim s)).map rustTrim).tail)
        keyName with
    | none => decide
    | some n => exact fromStr_display_Template (getParam_goodVal hgp)
  · exact fromStr_display_Tensor (getParam_goodVal hn) (getParam_goodVal hd)
      (getParam_goodVal hsr) hsh
  · rcases hplain with rfl | rfl | rfl | rfl | rfl | rfl | rfl | rfl | rfl | rfl | rfl <;>
      decide
  · subst hv
    show fromStr (rustTrim s) = .ok (.Unknown (rustTrim s))
    rw [fromStr_rustTrim]
    exact h0

/-! ## C1: round-trip -/

/-- C1 counterexample: the claim quantifies over every `MediaType` value,
but the hand-constructed value `Config { config_type: "a;b" }` — which is
not an `Unknown` with irregular parameter spacing/order — serializes to
`"application/vnd.ollama.image.config; type=a;b"`, which reparses as
`Config { config_type: "a" }`, not the original value. -/
theorem C1_roundtrip_counterexample :
    fromStr (OllamaMediaType.Config "a;b".toList).display ≠
      .ok (.Config "a;b".toList) := by decide

/-- C1 (amended): `parse(serialize(v)) == v` holds for every value `v`
that is itself the output of a successful parse (parser outputs have
trimmed, `';'`-free parameter fields, a tensor shape consistent with
`shape_raw`, and `Unknown` strings that re-dispatch to `Unknown`); and
the concrete tensor string parses and re-serializes to itself exactly. -/
theorem C1_roundtrip_amended :
    (∀ (s : Str) (v : OllamaMediaType),
      fromStr s = .ok v → fromStr v.display = .ok v) ∧
    (fromStr "application/vnd.ollama.image.tensor; name=output; dtype=I32; shape=4,5,6".toList).map
        OllamaMediaType.display =
      .ok "application/vnd.ollama.image.tensor; name=output; dtype=I32; shape=4,5,6".toList :=
  ⟨fun _ _ h => fromStr_ok_display h, by decide⟩

/-- Witness for C1 at a concrete input: `License` parses from its base
string, and the amended theorem then yields its round-trip. -/
theorem C1_roundtrip_amended_witness :
    fromStr (OllamaMediaType.License).display = .ok .License :=
  C1_roundtrip_amended.1 baseLicense .License (by decide)

/-! ## C5: reserved-namespace Unknown vs. InvalidBase -/

theorem parts_headD (s : Str) :
    ((splitChar ';' s).map rustTrim).headD [] = baseOfInput s := by
  have h := splitChar_headD_takeWhile ';' s
  cases hsc : splitChar ';' s with
  | nil => exact absurd hsc (splitChar_ne_nil ';' s)
  | cons a t =>
    rw [hsc] at h
    simp only [List.headD_cons] at h
    simp [List.map_cons, List.headD_cons, baseOfInput, h]

theorem knownBases_pfx : ∀ b ∈ knownBases, pfxStr.isPrefixOf b = true := by
  decide

theorem dispatch_not_known {base : Str} (params : List (Str × Str))
    (input : Str) (hnk : base ∉ knownBases) :
    dispatch base params input =
      if pfxStr.isPrefixOf base then .ok (.Unknown input)
      else .error (.InvalidBase base) := by
  have hne : ∀ b ∈ knownBases, base ≠ b := fun b hb hh => hnk (hh ▸ hb)
  unfold dispatch
  rw [if_neg (hne _ (by decide)), if_neg (hne _ (by decide)),
    if_neg (hne _ (by decide)), if_neg (hne _ (by decide)),
    if_neg (hne _ (by decide)), if_neg (hne _ (by decide)),
    if_neg (hne _ (by decide)), if_neg (hne _ (by decide)),
    if_neg (hne _ (by decide)), if_neg (hne _ (by decide)),
    if_neg (hne _ (by decide)), if_neg (hne _ (by decide)),
    if_neg (hne _ (by decide)), if_neg (hne _ (by decide))]

/-- C5: for every trimmed, non-empty input whose base (text before the
first `';'`, trimmed) starts with the reserved prefix but is not a known
base, parsing succeeds with `Unknown` carrying the entire input string
unchanged; when the base lacks the reserved prefix, parsing fails with
`InvalidBase` (never `Unknown`). -/
theorem C5_reserved_unknown_or_invalid (s : Str)
    (htrim : rustTrim s = s) (hne : s ≠ []) :
    (pfxStr.isPrefixOf (baseOfInput s) = true → baseOfInput s ∉ knownBases →
      fromStr s = .ok (.Unknown s)) ∧
    (pfxStr.isPrefixOf (baseOfInput s) = false →
      fromStr s = .error (.InvalidBase (baseOfInput s))) := by
  constructor
  · intro hpfx hnk
    rw [fromStr_eq, htrim, if_neg hne, parts_headD,
      dispatch_not_known _ _ hnk, if_pos hpfx]
  · intro hpfx
    have hnk : baseOfInput s ∉ knownBases := fun hm =>
      absurd (knownBases_pfx _ hm) (by simp [hpfx])
    rw [fromStr_eq, htrim, if_neg hne, parts_headD,
      dispatch_not_known _ _ hnk, if_neg (by simp [hpfx])]

/-- Witness for C5: a reserved-namespace unknown base parses to `Unknown`
verbatim, and a non-reserved base is rejected with `InvalidBase`. -/
theorem C5_reserved_unknown_or_invalid_witness :
    fromStr "application/vnd.ollama.image.future; foo=bar".toList =
      .ok (.Unknown "application/vnd.ollama.image.future; foo=bar".toList) ∧
    fromStr "text/plain".toList =
      .error (.InvalidBase "text/plain".toList) :=
  ⟨(C5_reserved_unknown_or_invalid _ (by decide) (by decide)).1
      (by decide) (by decide),
    (C5_reserved_unknown_or_invalid _ (by decide) (by decide)).2 (by decide)⟩

/-! ## C6: shape sub-grammar -/

theorem parseShapeDims_eq_specDims (l : List Str) :
    parseShapeDims l = specDims ((l.map rustTrim).filter fun s => !s.isEmpty) := by
  induction l with
  | nil => rfl
  | cons p rest ih =>
    simp only [parseShapeDims, List.map_cons, List.filter_cons]
    by_cases hs : rustTrim p = []
    · simp [hs, ih]
    · have : (rustTrim p).isEmpty = false := by
        cases hrp : rustTrim p with
        | nil => exact absurd hrp hs
        | cons c cs => rfl
      rw [if_neg hs, this]
      simp only [Bool.not_false, if_pos]
      rw [specDims, ih]

/-- C6: the shape value is split on `','`, parts trimmed, empty parts
skipped, each remaining part parsed as a non-negative integer with a
failing part raising `InvalidShapeComponent`; an entirely
empty/whitespace value yields no parsed shape; and `"1, 2,3"` parses to
`[1,2,3]` with `shape_raw` kept verbatim. -/
theorem C6_shape_subgrammar :
    (∀ raw : Str, parse_shape raw = spec_shape raw) ∧
    fromStr "application/vnd.ollama.image.tensor; name=input; dtype=F32; shape=1, 2,3".toList =
      .ok (.Tensor "input".toList "F32".toList "1, 2,3".toList
        (some [1, 2, 3])) := by
  refine ⟨fun raw => ?_, by decide⟩
  unfold parse_shape spec_shape cleanParts
  by_cases h : rustTrim raw = []
  · rw [if_pos h, if_pos h]
  · rw [if_neg h, if_neg h, parseShapeDims_eq_specDims]

/-! ## C10: parameter segments without an equals sign -/

/-- C10: a parameter segment with no `'='` becomes a key with empty
value: `splitn(2,'=')` yields the whole segment as key and `""` as value,
the collected parameter is `(trimmed segment, "")`, and consequently
`"application/vnd.ollama.image.config; type"` parses to `Config` with an
empty `config_type` rather than failing with `MissingParam("type")`. -/
theorem C10_eqless_param :
    (∀ p : Str, '=' ∉ p → splitOnce '=' p = (p, none)) ∧
    (∀ (p : Str) (ps : List Str), '=' ∉ p → p ≠ [] → rustTrim p ≠ [] →
      collectParams (p :: ps) = (rustTrim p, []) :: collectParams ps) ∧
    fromStr "application/vnd.ollama.image.config; type".toList =
      .ok (.Config []) := by
  refine ⟨fun p hp => splitOnce_no_sep hp, ?_, by decide⟩
  intro p ps hp hpne htr
  simp only [collectParams, if_neg hpne, splitOnce_no_sep hp]
  rw [if_neg htr]
  rfl

/-- Witness for C10 at the concrete segment `"type"`. -/
theorem C10_eqless_param_witness :
    splitOnce '=' "type".toList = ("type".toList, none) ∧
    collectParams ["type".toList] = [("type".toList, [])] :=
  ⟨C10_eqless_param.1 _ (by decide),
    C10_eqless_param.2.1 "type".toList [] (by decide) (by decide) (by decide)⟩

/-! ## C3: name normalization -/

/-- C3: `normalize` is total (it is a plain function into strings, with
no error path) and agrees with the §4.1 lookup table, rows evaluated top
to bottom on first match, on every input. -/
theorem C3_normalize_matches_table :
    ∀ (host nspace : Option Str) (model tag : Str),
      normalize_name host nspace model tag =
        spec_normalize host nspace model tag := by
  intro host nspace model tag
  cases host with
  | none =>
    cases nspace with
    | none => rfl
    | some ns =>
      simp only [normalize_name, spec_normalize]
      split_ifs <;> simp_all
  | some h =>
    cases nspace with
    | none => rfl
    | some ns =>
      simp only [normalize_name, spec_normalize]
      split_ifs <;> simp_all

/-! ## C4: identity resolver -/

/-- C4: the resolver accepts exactly the 3- or 4-segment lists whose
segments (tag included) are dot-free unless the hidden flag is set, and
maps segments positionally; acceptance under the flag yields the same
identity the positional mapping gives without the dot check. -/
theorem C4_resolver_spec :
    ∀ (comps : List Str) (include_hidden : Bool),
      parse_components comps include_hidden =
        spec_resolver comps include_hidden := by
  intro comps ih
  match comps with
  | [] => cases ih <;> rfl
  | [a] => cases ih <;> rfl
  | [a, b] => cases ih <;> rfl
  | [a, b, c] =>
    cases ih with
    | true => rfl
    | false =>
      simp only [parse_components, spec_resolver, posMap]
      cases hc : startsWithDot c <;> cases ha : startsWithDot a <;>
        cases hb : startsWithDot b <;>
        simp_all [List.getLast?, List.any_cons]
  | [a, b, c, d] =>
    cases ih with
    | true => rfl
    | false =>
      simp only [parse_components, spec_resolver, posMap]
      cases hd : startsWithDot d <;> cases ha : startsWithDot a <;>
        cases hb : startsWithDot b <;> cases hc : startsWithDot c <;>
        simp_all [List.getLast?, List.any_cons]
  | a :: b :: c :: d :: e :: rest =>
    have hlen : ¬((a :: b :: c :: d :: e :: rest).length = 4 ∨
        (a :: b :: c :: d :: e :: rest).length = 3) := by
      simp only [List.length_cons]
      omega
    have hlen' : ¬(((a :: b :: c :: d :: e :: rest).length = 3 ∨
        (a :: b :: c :: d :: e :: rest).length = 4) ∧
        (ih = true ∨ ∀ x ∈ a :: b :: c :: d :: e :: rest,
          startsWithDot x = false)) := by
      intro hh
      exact hlen (hh.1.elim Or.inr Or.inl)
    unfold parse_components spec_resolver
    rw [if_pos hlen, if_neg hlen']

/-! ## C2: primary blob selection -/

theorem primaryLoop_sim :
    ∀ (ls : List LayerInfo) (k : Nat) (full : List LayerInfo)
      (st : Option Nat × Nat) (acc : Option (Nat × Str)),
      (∀ j, full[k + j]? = ls[j]?) →
      PrimaryRel full st acc →
      PrimaryRel full (primaryLoop (List.enumFrom k ls) st)
        (amended_best ls acc) := by
  intro ls
  induction ls with
  | nil =>
    intro k full st acc _ h
    exact h
  | cons l rest ih =>
    intro k full st acc hlook h
    obtain ⟨idx, mx⟩ := st
    have hlook' : ∀ j, full[(k + 1) + j]? = rest[j]? := by
      intro j
      have := hlook (j + 1)
      rwa [show k + (j + 1) = (k + 1) + j by omega,
        List.getElem?_cons_succ] at this
    have hk : full[k]? = some l := by
      have := hlook 0
      rwa [Nat.add_zero, List.getElem?_cons_zero] at this
    simp only [List.enumFrom, primaryLoop, amended_best]
    cases hsz : l.size with
    | none => exact ih (k + 1) full (idx, mx) acc hlook' h
    | some sz =>
      dsimp only []
      cases idx with
      | none =>
        cases acc with
        | some x => exact absurd h (by simp [PrimaryRel])
        | none =>
          have hmx0 : mx = 0 := h
          subst hmx0
          by_cases hgt : sz > 0
          · rw [if_pos hgt, if_pos hgt]
            exact ih (k + 1) full (some k, sz) (some (sz, l.digest)) hlook'
              ⟨rfl, l, hk, rfl, hsz⟩
          · rw [if_neg hgt, if_neg hgt]
            exact ih (k + 1) full (none, 0) none hlook' h
      | some i =>
        cases acc with
        | none => exact absurd h (by simp [PrimaryRel])
        | some x =>
          have h' : mx = x.1 ∧ ∃ l', full[i]? = some l' ∧ l'.digest = x.2 ∧
              l'.size = some x.1 := h
          obtain ⟨hmx, hex⟩ := h'
          dsimp only []
          rw [← hmx]
          by_cases hgt : sz > mx
          · rw [if_pos hgt, if_pos hgt]
            exact ih (k + 1) full (some k, sz) (some (sz, l.digest)) hlook'
              ⟨rfl, l, hk, rfl, hsz⟩
          · rw [if_neg hgt, if_neg hgt]
            exact ih (k + 1) full (some i, mx) (some x) hlook' h

theorem build_blob_infos_fst (layers : List LayerInfo)
    (config : Option LayerInfo) (fs : Str → Option Nat) (root : Str) :
    (build_blob_infos layers config fs root).1 =
      amended_primary layers config := by
  have hsim := primaryLoop_sim layers 0 layers (none, 0) none
    (by intro j; rw [Nat.zero_add]) rfl
  unfold build_blob_infos amended_primary
  simp only [List.enum]
  rcases hi : (primaryLoop (List.enumFrom 0 layers) (none, 0)).1 with _ | i <;>
    rcases ha : amended_best layers none with _ | x
  · rfl
  · unfold PrimaryRel at hsim
    rw [hi, ha] at hsim
    exact absurd hsim (by simp)
  · unfold PrimaryRel at hsim
    rw [hi, ha] at hsim
    exact absurd hsim (by simp)
  · unfold PrimaryRel at hsim
    rw [hi, ha] at hsim
    obtain ⟨-, l, hl, hd, -⟩ := hsim
    dsimp only []
    rw [hl]
    dsimp only []
    rw [hd]

theorem build_blob_path_info_digest (l : LayerInfo) (p : Bool)
    (fs : Str → Option Nat) (root : Str) :
    (build_blob_path_info l p fs root).digest = l.digest := by
  unfold build_blob_path_info
  dsimp only []
  cases fs (digest_to_blob_path root l.digest) <;> rfl

theorem build_blob_path_info_primary (l : LayerInfo) (p : Bool)
    (fs : Str → Option Nat) (root : Str) :
    (build_blob_path_info l p fs root).primary = p := by
  unfold build_blob_path_info
  dsimp only []
  cases fs (digest_to_blob_path root l.digest) <;> rfl

theorem build_blob_infos_digests (layers : List LayerInfo)
    (config : Option LayerInfo) (fs : Str → Option Nat) (root : Str) :
    (build_blob_infos layers config fs root).2.map (·.digest) =
      layers.map (·.digest) ++
        (match config with | some c => [c.digest] | none => []) := by
  unfold build_blob_infos
  simp only [List.map_append, List.map_map]
  congr 1
  · exact List.map_congr_left fun l _ => build_blob_path_info_digest l false fs root
  · cases config with
    | none => rfl
    | some c => simp [build_blob_path_info_digest]

theorem build_blob_infos_unmarked (layers : List LayerInfo)
    (config : Option LayerInfo) (fs : Str → Option Nat) (root : Str) :
    ∀ bi ∈ (build_blob_infos layers config fs root).2, bi.primary = false := by
  intro bi hm
  unfold build_blob_infos at hm
  simp only [List.mem_append, List.mem_map] at hm
  rcases hm with ⟨l, -, rfl⟩ | hm
  · exact build_blob_path_info_primary l false fs root
  · cases config with
    | none => simp at hm
    | some c =>
      simp only [List.mem_singleton] at hm
      rw [hm]
      exact build_blob_path_info_primary c false fs root

theorem mark_primary_iff {pd : Option Str} {infos : List BlobPathInfo}
    (hall : ∀ bi ∈ infos, bi.primary = false) :
    ∀ bi ∈ mark_primary pd infos,
      (bi.primary = true ↔ pd = some bi.digest) := by
  intro bi hm
  cases pd with
  | none =>
    rw [mark_primary] at hm
    rw [hall bi hm]
    simp
  | some d =>
    rw [mark_primary] at hm
    obtain ⟨bi0, hbi0, rfl⟩ := List.mem_map.mp hm
    by_cases hd : bi0.digest = d
    · rw [if_pos hd]
      simp [hd]
    · rw [if_neg hd]
      rw [hall bi0 hbi0]
      simp [Ne.symm hd]

/-- C2 counterexample: a single layer declaring size `0` (with a config
present) is never selected by the loop (`sz > max_size` with
`max_size = 0` fails), so the code falls back to the config digest,
whereas the claim's rule selects the layer with the largest declared
size among layers that declare one. -/
theorem C2_primary_selection_counterexample :
    (build_blob_infos [⟨"a".toList, [], some 0⟩]
        (some ⟨"c".toList, [], none⟩) (fun _ => none) []).1 ≠
      claim_primary [⟨"a".toList, [], some 0⟩]
        (some ⟨"c".toList, [], none⟩) := by decide

/-- C2 (amended): the primary digest is that of the layer with the
strictly largest declared size among layers declaring a *positive* size
(ties keep the earliest layer; a layer declaring size 0 never
qualifies); if no layer declares a positive size, the config's digest
when present, else none.  The info list is layers in order then config
last, and after marking exactly the records whose digest string-equals
the primary digest are marked primary. -/
theorem C2_primary_selection_amended :
    ∀ (layers : List LayerInfo) (config : Option LayerInfo)
      (fs : Str → Option Nat) (root : Str),
      (build_blob_infos layers config fs root).1 =
        amended_primary layers config ∧
      (build_blob_infos layers config fs root).2.map (·.digest) =
        layers.map (·.digest) ++
          (match config with | some c => [c.digest] | none => []) ∧
      (∀ bi ∈ mark_primary (build_blob_infos layers config fs root).1
          (build_blob_infos layers config fs root).2,
        (bi.primary = true ↔
          (build_blob_infos layers config fs root).1 = some bi.digest)) :=
  fun layers config fs root =>
    ⟨build_blob_infos_fst layers config fs root,
      build_blob_infos_digests layers config fs root,
      mark_primary_iff (build_blob_infos_unmarked layers config fs root)⟩

/-- Witness for C2 at a concrete input: one layer of size 5, no config;
that layer's digest is primary and its (marked) record is flagged. -/
theorem C2_primary_selection_amended_witness :
    (build_blob_infos [⟨"a".toList, [], some 5⟩] none (fun _ => none) []).1 =
      amended_primary [⟨"a".toList, [], some 5⟩] none ∧
    (((mark_primary
        (build_blob_infos [⟨"a".toList, [], some 5⟩] none (fun _ => none) []).1
        (build_blob_infos [⟨"a".toList, [], some 5⟩] none
          (fun _ => none) []).2).headD default).primary = true ↔
      (build_blob_infos [⟨"a".toList, [], some 5⟩] none (fun _ => none) []).1 =
        some ((mark_primary
          (build_blob_infos [⟨"a".toList, [], some 5⟩] none (fun _ => none) []).1
          (build_blob_infos [⟨"a".toList, [], some 5⟩] none
            (fun _ => none) []).2).headD default).digest) :=
  ⟨(C2_primary_selection_amended [⟨"a".toList, [], some 5⟩] none
      (fun _ => none) []).1,
    (C2_primary_selection_amended [⟨"a".toList, [], some 5⟩] none
      (fun _ => none) []).2.2 _ (by decide)⟩

/-! ## C7: blob integrity invariants -/

/-- C7: `size_ok` is `Some` only when both declared and observed sizes
are known; a missing file yields `actual_size = none` and
`size_ok = none`; and an existing file with a declared size yields
`size_ok = some (declared == observed)` — `some false` on disagreement. -/
theorem C7_blob_integrity :
    ∀ (l : LayerInfo) (p : Bool) (fs : Str → Option Nat) (root : Str),
      ((build_blob_path_info l p fs root).size_ok ≠ none →
        (build_blob_path_info l p fs root).declared_size ≠ none ∧
          (build_blob_path_info l p fs root).actual_size ≠ none) ∧
      ((build_blob_path_info l p fs root).exists' = false →
        (build_blob_path_info l p fs root).actual_size = none ∧
          (build_blob_path_info l p fs root).size_ok = none) ∧
      (∀ d a, l.size = some d →
        (build_blob_path_info l p fs root).exists' = true →
        (build_blob_path_info l p fs root).actual_size = some a →
        (build_blob_path_info l p fs root).size_ok = some (decide (d = a))) := by
  intro l p fs root
  unfold build_blob_path_info
  dsimp only []
  cases hfs : fs (digest_to_blob_path root l.digest) with
  | none =>
    refine ⟨fun h => absurd rfl h, fun _ => ⟨rfl, rfl⟩, ?_⟩
    intro d a _ h
    exact absurd h (by simp)
  | some b =>
    dsimp only []
    refine ⟨fun hso => ?_, fun h => absurd h (by simp), ?_⟩
    · refine ⟨fun hnone => hso ?_, by simp⟩
      rw [hnone]
      rfl
    · intro d a hls _ ha
      have hb : b = a := by simpa using ha
      subst hb
      rw [hls]
      rfl

/-- Witness for C7 at a concrete input: a file that exists with size 7
against a declared size 5 yields `size_ok = some false`. -/
theorem C7_blob_integrity_witness :
    (build_blob_path_info ⟨"sha256:aa".toList, [], some 5⟩ false
      (fun _ => some 7) "/b".toList).size_ok = some false :=
  (C7_blob_integrity ⟨"sha256:aa".toList, [], some 5⟩ false
      (fun _ => some 7) "/b".toList).2.2 5 7 rfl (by decide) (by decide)

/-! ## C9: digest-to-path mapping -/

theorem isPrefixOf_append_self (p t : Str) : p.isPrefixOf (p ++ t) = true := by
  induction p with
  | nil => simp [List.isPrefixOf]
  | cons c cs ih => simp [List.isPrefixOf, ih]

/-- C9: a digest of the form `"sha256:<rest>"` maps to
`blobs_root/sha256-<rest>`, and any digest not starting with that prefix
maps to `blobs_root/<digest with every ':' replaced by '-'>`. -/
theorem C9_digest_to_path :
    ∀ (blobs_root digest : Str),
      (∀ rest, digest = sha256Pfx ++ rest →
        digest_to_blob_path blobs_root digest =
          pathJoin blobs_root ("sha256-".toList ++ rest)) ∧
      (sha256Pfx.isPrefixOf digest = false →
        digest_to_blob_path blobs_root digest =
          pathJoin blobs_root
            (digest.map fun c => if c = ':' then '-' else c)) := by
  intro blobs_root digest
  constructor
  · rintro rest rfl
    unfold digest_to_blob_path stripPfx
    rw [if_pos (isPrefixOf_append_self sha256Pfx rest), List.drop_left]
  · intro h
    unfold digest_to_blob_path stripPfx
    rw [if_neg (by simp [h])]

/-- Witness for C9: the two concrete mappings from the claim. -/
theorem C9_digest_to_path_witness :
    digest_to_blob_path "/tmp/blobs".toList "sha256:1234abcd".toList =
      "/tmp/blobs/sha256-1234abcd".toList ∧
    digest_to_blob_path "/tmp/blobs".toList "crc32:abcd".toList =
      "/tmp/blobs/crc32-abcd".toList := by
  constructor
  · have h := (C9_digest_to_path "/tmp/blobs".toList
      "sha256:1234abcd".toList).1 "1234abcd".toList (by decide)
    rw [h]
    decide
  · have h := (C9_digest_to_path "/tmp/blobs".toList
      "crc32:abcd".toList).2 (by decide)
    rw [h]
    decide

/-! ## C8: result ordering -/

theorem filter_orderedInsert (n : Str) (a : ListedModel)
    (l : List ListedModel) :
    (List.orderedInsert modelLe a l).filter (fun m => decide (m.name = n)) =
      if a.name = n then
        a :: l.filter (fun m => decide (m.name = n))
      else l.filter (fun m => decide (m.name = n)) := by
  induction l with
  | nil =>
    simp only [List.orderedInsert, List.filter_cons, List.filter_nil]
    by_cases h : a.name = n <;> simp [h]
  | cons b t ih =>
    simp only [List.orderedInsert]
    by_cases hr : modelLe a b
    · rw [if_pos hr]
      simp only [List.filter_cons]
      by_cases han : a.name = n <;> by_cases hbn : b.name = n <;>
        simp [han, hbn]
    · rw [if_neg hr]
      have hba : b.name < a.name := lt_of_not_le hr
      simp only [List.filter_cons]
      by_cases han : a.name = n
      · have hbn : ¬(b.name = n) := fun hh => absurd (han ▸ hh ▸ hba) (lt_irrefl _)
        simp only [han, if_pos] at ih ⊢
        rw [ih]
        simp [hbn]
      · simp only [if_neg han] at ih ⊢
        rw [ih]

theorem filter_insertionSort (n : Str) (l : List ListedModel) :
    (List.insertionSort modelLe l).filter (fun m => decide (m.name = n)) =
      l.filter (fun m => decide (m.name = n)) := by
  induction l with
  | nil => rfl
  | cons a t ih =>
    simp only [List.insertionSort]
    rw [filter_orderedInsert, List.filter_cons]
    by_cases h : a.name = n <;> simp [h, ih]

/-- C8 counterexample: the library entry point `scan_manifests` in
`lib.rs` performs no sort at all — two entries discovered in reverse name
order are returned in traversal order, unsorted. -/
theorem C8_sorted_counterexample :
    ¬ List.Sorted modelLe
      (scan_manifests
        [⟨["lib".toList, "bb".toList, "t".toList], false,
            some ⟨[], none⟩, "p1".toList, none⟩,
          ⟨["lib".toList, "aa".toList, "t".toList], false,
            some ⟨[], none⟩, "p2".toList, none⟩]
        false false false (fun _ => none) []) := by
  decide

/-- C8 (amended): the `main.rs` binary sorts its result list by display
name (byte-wise ascending) with a stable sort, so entries with equal
names keep their traversal-order positions; the inner crate's scan also
returns a list sorted by name (via `sort_unstable_by`, with no stability
guarantee); the outer `lib.rs` `scan_manifests` returns entries in
traversal order without sorting. -/
theorem C8_sorted_amended :
    ∀ (entries : List ScanEntry) (ih vb bp : Bool) (fs : Str → Option Nat)
      (root : Str),
      List.Sorted modelLe (main_result entries ih vb bp fs root) ∧
      (∀ n : Str,
        (main_result entries ih vb bp fs root).filter
            (fun m => decide (m.name = n)) =
          (scan_manifests_main entries ih vb bp fs root).filter
            (fun m => decide (m.name = n))) ∧
      List.Sorted modelLe (scan_manifests_inner entries ih vb fs root) := by
  intro entries ih vb bp fs root
  refine ⟨?_, fun n => ?_, ?_⟩
  · exact List.sorted_insertionSort modelLe _
  · exact filter_insertionSort n _
  · exact List.sorted_insertionSort modelLe _

end OFF
